import Mathlib

/-!
Verification development for the flowers-import repository.

The repository consolidates supplier invoice line items into a pricing
table (scripts/calc_finais.py, function finalize_table) and parses the
Flores Prisma supplier JSON (scripts/flores_prisma/parser.py, class
FloresPrismaJSON).  Python floats are modelled as exact rationals; the
rounding performed by Python's round and by pandas/numpy .round is
round-half-to-even, modelled exactly on rationals.  pandas groupby sorts
its keys in ascending string order.  sort_values with the pandas default
quicksort does not guarantee the order of tied keys; the model fixes one
deterministic sort (insertion sort), and every theorem about row order
is either invariant under tie-breaking (sortedness by key, counts,
multiset facts, per-row field relations) or evaluated on frames whose
tie order the code's sort reproduces (small frames fall in numpy's
insertion-sort regime, frames with distinct keys are tie-free).
-/

/-- Round a rational to the nearest integer, ties to the even integer.
This is the rounding used by Python's builtin round and numpy round. -/
def roundHalfEven (q : ℚ) : ℤ :=
  let f : ℤ := ⌊q⌋
  let r : ℚ := q - f
  if r < 1/2 then f
  else if 1/2 < r then f + 1
  else if f % 2 = 0 then f else f + 1

/-- Python round(x, k): round half to even at k decimal digits. -/
def roundTo (k : ℕ) (q : ℚ) : ℚ :=
  (roundHalfEven (q * 10 ^ k) : ℚ) / 10 ^ k

/-- Comparison of char lists by code point, as Python compares strings. -/
def charsLe : List Char → List Char → Bool
  | [], _ => true
  | _ :: _, [] => false
  | a :: as, b :: bs =>
    if a.toNat < b.toNat then true
    else if b.toNat < a.toNat then false
    else charsLe as bs

/-- String comparison by code point (Python string ordering). -/
def strLe (a b : String) : Bool := charsLe a.data b.data

/-- A normalized line item: the dicts of calc_finais.finalize_table's
items argument (keys product, stems, value_usd). -/
structure Item where
  product : String
  stems : ℤ
  value_usd : ℚ
deriving DecidableEq

/-- An intermediate grouped record: one row of the frame g built inside
finalize_table (columns Produto, total_stems, subtotal_usd). -/
structure GroupRow where
  product : String
  total_stems : ℤ
  subtotal_usd : ℚ
deriving DecidableEq

/-- One row of the final table of finalize_table, fields in the order of
COLUMNS: Produto, Núm. de hastes, Subtotal do invoice, Cotação do dólar,
Preço, Custos de operação, Total. -/
structure Row where
  produto : String
  hastes : ℤ
  subtotal : ℚ
  cotacao : ℚ
  preco : ℚ
  custos : ℚ
  total : ℚ
deriving DecidableEq

/-- Sum of stems over the items of one product (the groupby sum). -/
def sumStems (items : List Item) (p : String) : ℤ :=
  ((items.filter (fun it => it.product = p)).map Item.stems).sum

/-- Sum of value_usd over the items of one product (the groupby sum). -/
def sumValue (items : List Item) (p : String) : ℚ :=
  ((items.filter (fun it => it.product = p)).map Item.value_usd).sum

/-- The distinct products of the items in ascending string order: the
group keys of df_items.groupby("product") (pandas sorts group keys). -/
def groupKeys (items : List Item) : List String :=
  List.insertionSort (fun a b => strLe a b = true) (items.map Item.product).dedup

/-- The ordering key of finalize_table: order maps each product name to
its last index in produtos (the dict comprehension lets later indices
overwrite earlier ones), and map(order).fillna(1_000_000) sends names
absent from produtos to the sentinel 1000000. -/
def ordKey (produtos : List String) (p : String) : ℕ :=
  (produtos.enum.foldl (fun acc x => if x.2 = p then some x.1 else acc) Option.none).getD 1000000

/-- One output row of finalize_table: Subtotal do invoice is the rounded
group subtotal, Preço is the rounded product of that rounded subtotal
with the rate, Custos de operação comes from ops (default 0.0), and
Total is the guarded per-stem division rounded to 4 places. -/
def mkRow (cot : ℚ) (ops : List (String × ℚ)) (grp : GroupRow) : Row :=
  let sub := roundTo 2 grp.subtotal_usd
  let preco := roundTo 2 (sub * cot)
  let custo := (ops.lookup grp.product).getD 0
  { produto := grp.product
    hastes := grp.total_stems
    subtotal := sub
    cotacao := cot
    preco := preco
    custos := custo
    total := if 0 < grp.total_stems then
        roundTo 4 ((preco + custo) / (grp.total_stems : ℚ))
      else 0 }

/-- The grouped-plus-synthesized frame of finalize_table before the sort:
the groupby rows (keys in ascending string order) followed by one
zero-filled row for each product of produtos not among the keys. -/
def groupedFrame (items : List Item) (produtos : List String) : List GroupRow :=
  let keys := groupKeys items
  let g0 : List GroupRow := keys.map (fun p => ⟨p, sumStems items p, sumValue items p⟩)
  let missing := produtos.filter (fun p => ¬ p ∈ keys)
  g0 ++ missing.map (fun p => ⟨p, 0, 0⟩)

/-- Shallow embedding of calc_finais.finalize_table.  The frame g is
grouped, completed against produtos, sorted by ordKey (the code's
sort_values leaves the order of tied keys unspecified; the model fixes
insertion sort, and no theorem relies on the model's tie order beyond
what the code reproduces), and mapped to the final columns.
float(cotacao or 0.0) and float(... or 0.0) only turn falsy values into
0.0, the identity on exact rationals. -/
def finalize_table (items : List Item) (cotacao : ℚ) (produtos : List String)
    (ops : List (String × ℚ)) : List Row :=
  let g := groupedFrame items produtos
  let sorted := List.insertionSort
    (fun a b => ordKey produtos a.product ≤ ordKey produtos b.product) g
  sorted.map (mkRow cotacao ops)

/-- A Python value as it occurs in the supplier JSON fields: None (also
standing for an absent key, since dict.get returns None), an integer, or
a string.  These are the shapes the claims range over. -/
inductive PyVal where
  | none
  | int (n : ℤ)
  | str (s : String)
deriving DecidableEq

/-- Python truthiness of a PyVal: None, 0 and the empty string are falsy. -/
def pyTruthy : PyVal → Bool
  | .none => false
  | .int n => n != 0
  | .str s => !s.isEmpty

/-- Python str(v) for a PyVal. -/
def pyStr : PyVal → String
  | .none => "None"
  | .int n => toString n
  | .str s => s

/-- Python str.strip with no argument: drop unicode whitespace from both
ends, modelled on the char list. -/
def stripChars (cs : List Char) : List Char :=
  ((cs.dropWhile Char.isWhitespace).reverse.dropWhile Char.isWhitespace).reverse

/-- String form of stripChars (Python s.strip()). -/
def pyStrip (s : String) : String := ⟨stripChars s.data⟩

/-- Python s.replace with one-char arguments: charwise substitution of
the comma by the dot. -/
def pyReplaceComma (s : String) : String :=
  ⟨s.data.map (fun c => if c = ',' then '.' else c)⟩

/-- Value of a list of ASCII digit chars read in base 10. -/
def digitsVal (cs : List Char) : ℕ :=
  cs.foldl (fun a c => a * 10 + (c.toNat - 48)) 0

/-- A nonempty all-digit char list, or failure. -/
def digitsToNat? (cs : List Char) : Option ℕ :=
  if !cs.isEmpty && cs.all Char.isDigit then some (digitsVal cs) else Option.none

/-- Python int(s) on a string: optional surrounding whitespace, optional
sign, a nonempty run of digits; anything else fails.  (The model covers
the plain decimal forms; digit-group underscores are out of scope.) -/
def parsePyInt (s : String) : Option ℤ :=
  match stripChars s.data with
  | '+' :: cs => (digitsToNat? cs).map (fun n => (n : ℤ))
  | '-' :: cs => (digitsToNat? cs).map (fun n => -(n : ℤ))
  | cs => (digitsToNat? cs).map (fun n => (n : ℤ))

/-- Python float(s) on a string: optional surrounding whitespace,
optional sign, digits with an optional dot, at least one digit overall;
anything else fails.  (The model covers the plain decimal forms;
exponents, inf and nan are out of scope.) -/
def parsePyFloatRepr (s : String) : Option (Bool × ℕ × ℕ × ℕ) :=
  let cs := stripChars s.data
  let signed : Bool × List Char :=
    match cs with
    | '+' :: r => (false, r)
    | '-' :: r => (true, r)
    | r => (false, r)
  let ip := signed.2.takeWhile (fun c => c ≠ '.')
  let rest := signed.2.drop ip.length
  if !ip.all Char.isDigit then Option.none
  else match rest with
    | [] => if ip.isEmpty then Option.none else some (signed.1, digitsVal ip, 0, 0)
    | '.' :: fp =>
      if fp.all Char.isDigit && (!ip.isEmpty || !fp.isEmpty) then
        some (signed.1, digitsVal ip, digitsVal fp, fp.length)
      else Option.none
    | _ => Option.none

/-- The rational named by a parsed sign, integer part, fraction part and
fraction length. -/
def parsePyFloat (s : String) : Option ℚ :=
  (parsePyFloatRepr s).map (fun r =>
    (if r.1 then -1 else 1) * ((r.2.1 : ℚ) + (r.2.2.1 : ℚ) / 10 ^ r.2.2.2))

/-- Python int(x) on a float value: truncation toward zero. -/
def ratTrunc (q : ℚ) : ℤ := if q < 0 then ⌈q⌉ else ⌊q⌋

/-- Python float(v) applied to the raw value (the second attempt of
FloresPrismaJSON._parse_float): floats a number directly, parses a
string (float() itself tolerates surrounding whitespace), raises on
None. -/
def pyFloatOf : PyVal → Option ℚ
  | .none => Option.none
  | .int n => some (n : ℚ)
  | .str s => parsePyFloat s

/-- Shallow embedding of FloresPrismaJSON._parse_int: try
int(str(v).strip()); on failure try int(float(str(v).replace(",", ".").strip()));
on failure return 0. -/
def _parse_int (v : PyVal) : ℤ :=
  match parsePyInt (pyStrip (pyStr v)) with
  | some n => n
  | Option.none =>
    match parsePyFloat (pyStrip (pyReplaceComma (pyStr v))) with
    | some q => ratTrunc q
    | Option.none => 0

/-- Shallow embedding of FloresPrismaJSON._parse_float: try
float(str(v).replace(",", ".").strip()); on failure try float(v); on
failure return 0.0. -/
def _parse_float (v : PyVal) : ℚ :=
  match parsePyFloat (pyStrip (pyReplaceComma (pyStr v))) with
  | some q => q
  | Option.none =>
    match pyFloatOf v with
    | some q => q
    | Option.none => 0

/-- Shallow embedding of FloresPrismaJSON._map_product with the mapper
state (depara_map as an association list with the first binding of a key
authoritative, matching a Python dict of unique keys, and the default
product) made explicit: None is returned unchanged, otherwise the
stripped identifier is looked up exactly, with the default on a miss. -/
def _map_product (rules : List (String × String)) (dflt : String)
    (nm_product : Option String) : Option String :=
  match nm_product with
  | Option.none => Option.none
  | some s => some ((rules.lookup (pyStrip s)).getD dflt)

/-- The bunch-count subexpression of FloresPrismaJSON.parse, line 85: the
Python expression p.get("nu_bunches") or 1 yields the field when truthy
and the integer 1 otherwise. -/
def bunchField (v : PyVal) : PyVal := if pyTruthy v then v else PyVal.int 1

/-- Lines 84-86 of FloresPrismaJSON.parse: stems of one product entry as
a function of the nu_stems_bunch and nu_bunches fields. -/
def entryStems (spb bunches : PyVal) : ℤ :=
  _parse_int spb * _parse_int (bunchField bunches)

/-- Rounding as claim C4 words it, defined from the spec for comparison
with the code's rounding: standard half-up to k decimal places, a value
whose digit beyond the precision is exactly 5 rounding away from zero. -/
def roundHalfUpSpec (k : ℕ) (q : ℚ) : ℚ :=
  let scaled := q * 10 ^ k
  let n : ℤ := if scaled < 0 then -⌊-scaled + 1/2⌋ else ⌊scaled + 1/2⌋
  (n : ℚ) / 10 ^ k

/-- The elements of a list in first-occurrence order. -/
def firstDedup (l : List String) : List String :=
  l.foldl (fun acc a => if a ∈ acc then acc else acc ++ [a]) []

/-- The products in the order their lines are first encountered in the
items list, defined from the spec's words (grouping-encounter order of
step 1 read as input order, spec section 3) for comparison with the
code's sorted grouping. -/
def encounterOrder (items : List Item) : List String :=
  firstDedup (items.map Item.product)

example : _parse_int (PyVal.str "abc") = 0 := by decide
example : _parse_int (PyVal.str " 12 ") = 12 := by decide
example : _parse_int (PyVal.str "3,5") = 3 := by
  have h1 : parsePyInt (pyStrip (pyStr (PyVal.str "3,5"))) = Option.none := by decide
  have h2 : parsePyFloatRepr (pyStrip (pyReplaceComma (pyStr (PyVal.str "3,5")))) =
      some (false, 3, 5, 1) := by decide
  simp only [_parse_int, parsePyFloat, h1, h2, Option.map]
  norm_num [ratTrunc]
example : _parse_float (PyVal.str "2,5") = 5/2 := by
  have h : parsePyFloatRepr (pyStrip (pyReplaceComma (pyStr (PyVal.str "2,5")))) =
      some (false, 2, 5, 1) := by decide
  simp only [_parse_float, parsePyFloat, h, Option.map]
  norm_num
example : _parse_float (PyVal.str "x") = 0 := by decide
example : _parse_int (PyVal.int 7) = 7 := by decide
example : pyTruthy (PyVal.int 0) = false := by decide
example : entryStems (PyVal.int 25) PyVal.none = 25 := by decide
example : _map_product [("RosaX", "Rosa")] "Coloridas" (some " RosaX ") = some "Rosa" := by decide
example : _map_product [("RosaX", "Rosa")] "Coloridas" (some "zzz") = some "Coloridas" := by decide

example : roundHalfEven (25/2) = 12 := by norm_num [roundHalfEven]
example : roundTo 2 (1/8) = 3/25 := by norm_num [roundTo, roundHalfEven]
example : groupKeys [⟨"Z", 1, 1⟩, ⟨"B", 2, 2⟩] = ["B", "Z"] := by decide
example : ordKey ["A", "B"] "B" = 1 := by decide
example : ordKey ["A", "B"] "X" = 1000000 := by decide
/-- Rounding a zero subtotal gives zero at any precision. -/
theorem roundTo_zero (k : ℕ) : roundTo k 0 = 0 := by
  norm_num [roundTo, roundHalfEven]

/-- The group keys carry no duplicates: they are the sorted
deduplication of the item products. -/
theorem nodup_groupKeys (items : List Item) : (groupKeys items).Nodup :=
  ((List.perm_insertionSort _ _).nodup_iff).mpr (List.nodup_dedup _)

/-- A product is a group key exactly when some item carries it. -/
theorem mem_groupKeys {items : List Item} {p : String} :
    p ∈ groupKeys items ↔ ∃ it ∈ items, it.product = p := by
  unfold groupKeys
  rw [(List.perm_insertionSort _ _).mem_iff, List.mem_dedup, List.mem_map]

/-- Counting a product among the final rows is counting it in the
grouped frame: the sort permutes and mkRow keeps the product. -/
theorem countP_finalize (items : List Item) (c : ℚ) (pr : List String)
    (ops : List (String × ℚ)) (p : String) :
    (finalize_table items c pr ops).countP (fun r => r.produto == p)
      = (groupedFrame items pr).countP (fun grp => grp.product == p) := by
  simp only [finalize_table]
  rw [List.countP_map]
  exact (List.perm_insertionSort _ _).countP_eq _

/-- Counting a product in the grouped frame splits over the grouped part
and the zero-filled part. -/
theorem countP_groupedFrame (items : List Item) (pr : List String) (p : String) :
    (groupedFrame items pr).countP (fun grp => grp.product == p)
      = (groupKeys items).countP (fun q => q == p)
        + (pr.filter (fun q => ¬ q ∈ groupKeys items)).countP (fun q => q == p) := by
  simp only [groupedFrame]
  rw [List.countP_append, List.countP_map, List.countP_map]
  rfl

/-- In a duplicate-free string list a member is counted once. -/
theorem countP_beq_one {l : List String} {p : String} (hnd : l.Nodup) (hm : p ∈ l) :
    l.countP (fun q => q == p) = 1 := by
  induction l with
  | nil => cases hm
  | cons a l ih =>
    rw [List.countP_cons]
    rcases List.mem_cons.mp hm with rfl | hm'
    · rw [List.countP_eq_zero.mpr, if_pos (by simp)]
      intro q hq hbeq
      exact (List.nodup_cons.mp hnd).1 (by rwa [show q = p from by simpa using hbeq] at hq)
    · rw [ih (List.nodup_cons.mp hnd).2 hm', if_neg]
      simp only [beq_iff_eq]
      rintro rfl
      exact (List.nodup_cons.mp hnd).1 hm'

/-- A non-member is counted zero times. -/
theorem countP_beq_zero {l : List String} {p : String} (hm : ¬ p ∈ l) :
    l.countP (fun q => q == p) = 0 :=
  List.countP_eq_zero.mpr (fun q hq hbeq => hm (by rwa [show q = p from by simpa using hbeq] at hq))

/-- Every final row is mkRow of a member of the grouped frame. -/
theorem mem_finalize {items : List Item} {c : ℚ} {pr : List String}
    {ops : List (String × ℚ)} {r : Row} (hr : r ∈ finalize_table items c pr ops) :
    ∃ grp ∈ groupedFrame items pr, r = mkRow c ops grp := by
  simp only [finalize_table, List.mem_map] at hr
  obtain ⟨grp, hg, rfl⟩ := hr
  exact ⟨grp, (List.perm_insertionSort _ _).mem_iff.mp hg, rfl⟩

/-- A member of the grouped frame is either a genuine group of the item
products or a zero-filled synthesized row for a missing catalog product. -/
theorem mem_groupedFrame {items : List Item} {pr : List String} {grp : GroupRow}
    (h : grp ∈ groupedFrame items pr) :
    (grp.product ∈ groupKeys items
      ∧ grp = ⟨grp.product, sumStems items grp.product, sumValue items grp.product⟩)
    ∨ (grp.product ∈ pr ∧ ¬ grp.product ∈ groupKeys items ∧ grp = ⟨grp.product, 0, 0⟩) := by
  simp only [groupedFrame, List.mem_append, List.mem_map] at h
  rcases h with ⟨q, hq, rfl⟩ | ⟨q, hq, rfl⟩
  · exact Or.inl ⟨hq, rfl⟩
  · rw [List.mem_filter] at hq
    exact Or.inr ⟨hq.1, by simpa using hq.2, rfl⟩

/-- A member of an enumeration from n carries a member of the list. -/
theorem enumFrom_snd_mem : ∀ (n : ℕ) (l : List String) (x : ℕ × String),
    x ∈ l.enumFrom n → x.2 ∈ l := by
  intro n l
  induction l generalizing n with
  | nil => intro x hx; cases hx
  | cons a l ih =>
    intro x hx
    rcases List.mem_cons.mp hx with rfl | hx'
    · exact List.mem_cons_self _ _
    · exact List.mem_cons_of_mem _ (ih (n + 1) x hx')

/-- A member of an enumeration from n has index below n plus the length. -/
theorem enumFrom_fst_lt : ∀ (n : ℕ) (l : List String) (x : ℕ × String),
    x ∈ l.enumFrom n → x.1 < n + l.length := by
  intro n l
  induction l generalizing n with
  | nil => intro x hx; cases hx
  | cons a l ih =>
    intro x hx
    rcases List.mem_cons.mp hx with rfl | hx'
    · simp
    · have := ih (n + 1) x hx'
      simp only [List.length_cons]
      omega

/-- Every member of the list appears in its enumeration from n. -/
theorem mem_enumFrom_of_mem : ∀ (n : ℕ) (l : List String) (p : String),
    p ∈ l → ∃ x ∈ l.enumFrom n, x.2 = p := by
  intro n l
  induction l generalizing n with
  | nil => intro p hp; cases hp
  | cons a l ih =>
    intro p hp
    rcases List.mem_cons.mp hp with rfl | hp'
    · exact ⟨(n, p), List.mem_cons_self _ _, rfl⟩
    · obtain ⟨x, hx, hxp⟩ := ih (n + 1) p hp'
      exact ⟨x, List.mem_cons_of_mem _ hx, hxp⟩

/-- The last-index fold of ordKey leaves the accumulator alone when no
entry matches. -/
theorem lastIdxFoldl_no_match {p : String} : ∀ (l : List (ℕ × String)) (acc : Option ℕ),
    (∀ x ∈ l, x.2 ≠ p) →
    l.foldl (fun acc x => if x.2 = p then some x.1 else acc) acc = acc := by
  intro l
  induction l with
  | nil => intro acc _; rfl
  | cons y l ih =>
    intro acc h
    rw [List.foldl_cons, if_neg (h y (List.mem_cons_self _ _))]
    exact ih acc (fun x hx => h x (List.mem_cons_of_mem _ hx))

/-- The last-index fold of ordKey lands on the index of some matching
entry whenever one exists. -/
theorem lastIdxFoldl_match {p : String} : ∀ (l : List (ℕ × String)) (acc : Option ℕ),
    (∃ x ∈ l, x.2 = p) →
    ∃ x ∈ l, x.2 = p ∧
      l.foldl (fun acc x => if x.2 = p then some x.1 else acc) acc = some x.1 := by
  intro l
  induction l with
  | nil => rintro acc ⟨x, hx, -⟩; cases hx
  | cons y l ih =>
    intro acc hex
    by_cases hm : ∃ x ∈ l, x.2 = p
    · obtain ⟨x, hx, hxp, hfold⟩ := ih (if y.2 = p then some y.1 else acc) hm
      exact ⟨x, List.mem_cons_of_mem _ hx, hxp, by rw [List.foldl_cons]; exact hfold⟩
    · rcases hex with ⟨x, hx, hxp⟩
      rcases List.mem_cons.mp hx with rfl | hxl
      · refine ⟨x, List.mem_cons_self _ _, hxp, ?_⟩
        rw [List.foldl_cons, if_pos hxp]
        exact lastIdxFoldl_no_match l _ (fun z hz hzp => hm ⟨z, hz, hzp⟩)
      · exact absurd ⟨x, hxl, hxp⟩ hm

/-- A product absent from the catalog gets the sentinel ordering key. -/
theorem ordKey_of_not_mem {pr : List String} {p : String} (hp : ¬ p ∈ pr) :
    ordKey pr p = 1000000 := by
  rw [ordKey, lastIdxFoldl_no_match]
  · rfl
  · intro x hx hxp
    exact hp (hxp ▸ enumFrom_snd_mem 0 pr x hx)

/-- A catalog product's ordering key is its (last) index, below the
catalog length. -/
theorem ordKey_lt_length {pr : List String} {p : String} (hp : p ∈ pr) :
    ordKey pr p < pr.length := by
  obtain ⟨x, hx, hxp, hfold⟩ := lastIdxFoldl_match pr.enum Option.none
    (mem_enumFrom_of_mem 0 pr p hp)
  rw [ordKey, hfold]
  simpa using enumFrom_fst_lt 0 pr x hx

/-- C1: finalize_table on items A:stems 100, value 50.00, catalog A,B,
rate 5.0, no cost overrides, yields exactly the two rows A (stems 100,
subtotal 50.00, price 250.00, cost 0.0, total 2.5000) then B (stems 0,
subtotal 0.0, price 0.0, cost 0.0, total 0.0). -/
theorem C1_example_rows :
    finalize_table [⟨"A", 100, 50⟩] 5 ["A", "B"] [] =
      [⟨"A", 100, 50, 5, 250, 0, 5/2⟩, ⟨"B", 0, 0, 5, 0, 0, 0⟩] := by
  norm_num +decide [finalize_table, groupedFrame, groupKeys, mkRow, sumStems, sumValue,
    List.insertionSort, List.orderedInsert, ordKey, roundTo, roundHalfEven,
    List.dedup, List.enum, List.enumFrom, List.foldl, Option.getD, List.lookup]

/-- C2: for every item list, rate and cost-override map, and every
duplicate-free catalog, the table holds exactly one row per catalog
product, and a catalog product carried by no item gets a zero-filled row
(total_stems 0, subtotal 0.0). -/
theorem C2_catalog_coverage (items : List Item) (c : ℚ) (pr : List String)
    (ops : List (String × ℚ)) (hnd : pr.Nodup) :
    ∀ p ∈ pr,
      (finalize_table items c pr ops).countP (fun r => r.produto == p) = 1 ∧
      ((∀ it ∈ items, it.product ≠ p) →
        ∀ r ∈ finalize_table items c pr ops, r.produto = p →
          r.hastes = 0 ∧ r.subtotal = 0) := by
  intro p hp
  constructor
  · rw [countP_finalize, countP_groupedFrame]
    by_cases hk : p ∈ groupKeys items
    · rw [countP_beq_one (nodup_groupKeys items) hk, countP_beq_zero]
      intro hmem
      have := (List.mem_filter.mp hmem).2
      simp only [decide_eq_true_eq] at this
      exact this hk
    · rw [countP_beq_zero hk, countP_beq_one (hnd.filter _)
        (List.mem_filter.mpr ⟨hp, by simpa using hk⟩)]
  · intro hno r hr hrp
    obtain ⟨grp, hg, rfl⟩ := mem_finalize hr
    have hgp : grp.product = p := hrp
    have hk : ¬ grp.product ∈ groupKeys items := by
      rw [hgp, mem_groupKeys]
      rintro ⟨it, hit, rfl⟩
      exact hno it hit rfl
    rcases mem_groupedFrame hg with ⟨hk', -⟩ | ⟨-, -, hzero⟩
    · exact absurd hk' hk
    · constructor
      · show grp.total_stems = 0
        rw [hzero]
      · show roundTo 2 grp.subtotal_usd = 0
        rw [hzero]
        exact roundTo_zero 2

theorem C2_catalog_coverage_witness :
    (finalize_table [⟨"A", 100, 50⟩] 5 ["A", "B"] []).countP (fun r => r.produto == "B") = 1 ∧
    (⟨"B", 0, 0, 5, 0, 0, 0⟩ : Row).hastes = 0 ∧ (⟨"B", 0, 0, 5, 0, 0, 0⟩ : Row).subtotal = 0 := by
  have htab : finalize_table [⟨"A", 100, 50⟩] 5 ["A", "B"] [] =
      [⟨"A", 100, 50, 5, 250, 0, 5/2⟩, ⟨"B", 0, 0, 5, 0, 0, 0⟩] := by
    norm_num +decide [finalize_table, groupedFrame, groupKeys, mkRow, sumStems, sumValue,
      List.insertionSort, List.orderedInsert, ordKey, roundTo, roundHalfEven,
      List.dedup, List.enum, List.enumFrom, List.foldl, Option.getD, List.lookup]
  refine ⟨(C2_catalog_coverage [⟨"A", 100, 50⟩] 5 ["A", "B"] [] (by decide) "B" (by decide)).1, ?_⟩
  exact (C2_catalog_coverage [⟨"A", 100, 50⟩] 5 ["A", "B"] [] (by decide) "B" (by decide)).2
    (by decide) _ (by rw [htab]; exact List.mem_cons_of_mem _ (List.mem_cons_self _ _)) rfl

/-- Filtering a mapped list is mapping the filtered list. -/
theorem filter_of_map {α β : Type} (f : α → β) (q : β → Bool) :
    ∀ l : List α, (l.map f).filter q = (l.filter (fun a => q (f a))).map f := by
  intro l
  induction l with
  | nil => rfl
  | cons a l ih =>
    simp only [List.map_cons, List.filter_cons]
    by_cases h : q (f a)
    · rw [if_pos h, if_pos h, List.map_cons, ih]
    · rw [if_neg h, if_neg h, ih]

/-- Non-catalog products of the grouped frame live in the grouped part
and keep its order: the filtered frame is the filtered group-key list
mapped to groups. -/
theorem filter_groupedFrame_not_mem (items : List Item) (pr : List String) :
    (groupedFrame items pr).filter (fun grp => ¬ grp.product ∈ pr)
      = ((groupKeys items).filter (fun p => ¬ p ∈ pr)).map
          (fun p => (⟨p, sumStems items p, sumValue items p⟩ : GroupRow)) := by
  simp only [groupedFrame, List.filter_append]
  rw [filter_of_map, filter_of_map]
  have hmiss : (pr.filter (fun p => ¬ p ∈ groupKeys items)).filter
      (fun a => decide (¬ (⟨a, 0, 0⟩ : GroupRow).product ∈ pr)) = [] := by
    rw [List.filter_eq_nil_iff]
    intro a ha
    have hmem : a ∈ pr := (List.mem_filter.mp ha).1
    simp [hmem]
  rw [hmiss, List.map_nil, List.append_nil]

/-- C3 (amended): rows come out sorted by ordering key, so catalog rows
appear in catalog-index order, and, provided the catalog does not
exceed the sentinel size of 1000000, every non-catalog product row
comes after all catalog rows; the non-catalog products are, as a
multiset, exactly the non-catalog keys of the grouping.  Their relative
order is stated only up to permutation: the code's sort_values uses the
pandas default quicksort, which does not guarantee the order of tied
sentinel keys, so no finer ordering is claimed. -/
theorem C3_row_order (items : List Item) (c : ℚ) (pr : List String)
    (ops : List (String × ℚ)) (hlen : pr.length ≤ 1000000) :
    List.Pairwise (fun a b => ordKey pr a.produto ≤ ordKey pr b.produto)
      (finalize_table items c pr ops) ∧
    List.Pairwise (fun a b => ¬ a.produto ∈ pr → ¬ b.produto ∈ pr)
      (finalize_table items c pr ops) ∧
    List.Perm
      (((finalize_table items c pr ops).map Row.produto).filter (fun p => ¬ p ∈ pr))
      ((groupKeys items).filter (fun p => ¬ p ∈ pr)) := by
  have hpair : List.Pairwise
      (fun a b : GroupRow => ordKey pr a.product ≤ ordKey pr b.product)
      (List.insertionSort (fun a b => ordKey pr a.product ≤ ordKey pr b.product)
        (groupedFrame items pr)) := by
    letI : IsTotal GroupRow (fun a b => ordKey pr a.product ≤ ordKey pr b.product) :=
      ⟨fun a b => Nat.le_total _ _⟩
    letI : IsTrans GroupRow (fun a b => ordKey pr a.product ≤ ordKey pr b.product) :=
      ⟨fun a b c' hab hbc => Nat.le_trans hab hbc⟩
    exact List.sorted_insertionSort _ _
  have h1 : List.Pairwise (fun a b => ordKey pr a.produto ≤ ordKey pr b.produto)
      (finalize_table items c pr ops) := by
    simp only [finalize_table]
    rw [List.pairwise_map]
    exact hpair
  refine ⟨h1, ?_, ?_⟩
  · refine h1.imp ?_
    intro a b hab ha
    intro hb
    have hA := ordKey_of_not_mem ha
    have hB := ordKey_lt_length hb
    omega
  · show List.Perm (((finalize_table items c pr ops).map Row.produto).filter
        (fun p => decide (¬ p ∈ pr))) _
    simp only [finalize_table, List.map_map]
    rw [show Row.produto ∘ mkRow c ops = GroupRow.product from rfl]
    rw [filter_of_map]
    refine List.Perm.trans
      (((List.perm_insertionSort _ (groupedFrame items pr)).filter _).map GroupRow.product) ?_
    rw [filter_groupedFrame_not_mem, List.map_map]
    rw [show GroupRow.product ∘
      (fun p => (⟨p, sumStems items p, sumValue items p⟩ : GroupRow)) = id from rfl]
    rw [List.map_id]

theorem C3_row_order_witness :
    List.Pairwise (fun a b => ordKey ["A", "B"] a.produto ≤ ordKey ["A", "B"] b.produto)
      (finalize_table [⟨"A", 100, 50⟩] 5 ["A", "B"] []) ∧
    List.Pairwise (fun a b => ¬ a.produto ∈ (["A", "B"] : List String) →
      ¬ b.produto ∈ (["A", "B"] : List String))
      (finalize_table [⟨"A", 100, 50⟩] 5 ["A", "B"] []) ∧
    List.Perm
      (((finalize_table [⟨"A", 100, 50⟩] 5 ["A", "B"] []).map Row.produto).filter
        (fun p => ¬ p ∈ (["A", "B"] : List String)))
      ((groupKeys [⟨"A", 100, 50⟩]).filter (fun p => ¬ p ∈ (["A", "B"] : List String))) :=
  C3_row_order [⟨"A", 100, 50⟩] 5 ["A", "B"] [] (by norm_num)

/-- C3 (counterexample): with items encountering product Z before
product B and catalog A alone, the table rows come out A, B, Z, while
catalog rows followed by non-catalog products in input-encounter order
would be A, Z, B: the grouping sorts product names, it does not keep
input order.  (The three-row frame is far below numpy's small-array
insertion-sort cutoff, so on this input the code's sort is the stable
one the model computes.) -/
theorem C3_counterexample :
    (finalize_table [⟨"Z", 1, 1⟩, ⟨"B", 2, 2⟩] 1 ["A"] []).map Row.produto = ["A", "B", "Z"] ∧
    ["A"] ++ (encounterOrder [⟨"Z", 1, 1⟩, ⟨"B", 2, 2⟩]).filter
        (fun p => ¬ p ∈ (["A"] : List String)) = ["A", "Z", "B"] ∧
    (["A", "B", "Z"] : List String) ≠ ["A", "Z", "B"] := by
  refine ⟨?_, by decide, by decide⟩
  norm_num +decide [finalize_table, groupedFrame, groupKeys, mkRow, sumStems, sumValue,
    List.insertionSort, List.orderedInsert, ordKey, roundTo, roundHalfEven,
    List.dedup, List.enum, List.enumFrom, List.foldl, Option.getD, List.lookup]

/-- C4 (amended): every row's derived fields are each rounded exactly
once at the stated precision, but with round-half-to-even (the rounding
of Python round and numpy round), not half-up: the subtotal is the
2-place rounding of the item value sum, the converted price the 2-place
rounding of the rounded subtotal times the rate, and the per-stem total
the 4-place rounding of the guarded division. -/
theorem C4_rounding (items : List Item) (c : ℚ) (pr : List String)
    (ops : List (String × ℚ)) :
    ∀ r ∈ finalize_table items c pr ops,
      r.subtotal = roundTo 2 (sumValue items r.produto) ∧
      r.preco = roundTo 2 (r.subtotal * c) ∧
      r.custos = ((ops.lookup r.produto).getD 0) ∧
      r.total = (if 0 < r.hastes then roundTo 4 ((r.preco + r.custos) / (r.hastes : ℚ)) else 0) := by
  intro r hr
  obtain ⟨grp, hg, rfl⟩ := mem_finalize hr
  have hval : grp.subtotal_usd = sumValue items grp.product := by
    rcases mem_groupedFrame hg with ⟨-, heq⟩ | ⟨-, hk, heq⟩
    · exact congrArg GroupRow.subtotal_usd heq
    · have h0 : sumValue items grp.product = 0 := by
        rw [sumValue]
        have hnil : items.filter (fun it => it.product = grp.product) = [] := by
          rw [List.filter_eq_nil_iff]
          intro it hit
          simp only [decide_eq_true_eq]
          intro hp
          exact hk (mem_groupKeys.mpr ⟨it, hit, hp⟩)
        rw [hnil]
        rfl
      rw [h0]
      exact congrArg GroupRow.subtotal_usd heq
  refine ⟨?_, rfl, rfl, rfl⟩
  show roundTo 2 grp.subtotal_usd = roundTo 2 (sumValue items (mkRow c ops grp).produto)
  rw [hval]
  rfl

theorem C4_rounding_witness :
    (50 : ℚ) = roundTo 2 (sumValue [⟨"A", 100, 50⟩] "A") ∧
    (250 : ℚ) = roundTo 2 (50 * 5) ∧
    (0 : ℚ) = ((([] : List (String × ℚ)).lookup "A").getD 0) ∧
    (5/2 : ℚ) = (if (0 : ℤ) < 100 then roundTo 4 ((250 + 0) / ((100 : ℤ) : ℚ)) else 0) := by
  have htab : finalize_table [⟨"A", 100, 50⟩] 5 ["A", "B"] [] =
      [⟨"A", 100, 50, 5, 250, 0, 5/2⟩, ⟨"B", 0, 0, 5, 0, 0, 0⟩] := by
    norm_num +decide [finalize_table, groupedFrame, groupKeys, mkRow, sumStems, sumValue,
      List.insertionSort, List.orderedInsert, ordKey, roundTo, roundHalfEven,
      List.dedup, List.enum, List.enumFrom, List.foldl, Option.getD, List.lookup]
  have hmem : (⟨"A", 100, 50, 5, 250, 0, 5/2⟩ : Row) ∈
      finalize_table [⟨"A", 100, 50⟩] 5 ["A", "B"] [] := by
    rw [htab]
    exact List.mem_cons_self _ _
  exact C4_rounding _ 5 _ _ _ hmem

/-- C4 (counterexample): the subtotal 0.125 is rounded by the code to
0.12 (half to even), while the claim's half-up rounding, away from zero
on an exact 5, demands 0.13. -/
theorem C4_counterexample :
    (finalize_table [⟨"A", 1, 1/8⟩] 0 ["A"] []).map Row.subtotal = [3/25] ∧
    roundHalfUpSpec 2 (1/8) = 13/100 ∧
    (3/25 : ℚ) ≠ 13/100 := by
  refine ⟨?_, ?_, by norm_num⟩
  · norm_num +decide [finalize_table, groupedFrame, groupKeys, mkRow, sumStems, sumValue,
      List.insertionSort, List.orderedInsert, ordKey, roundTo, roundHalfEven,
      List.dedup, List.enum, List.enumFrom, List.foldl, Option.getD, List.lookup]
  · norm_num [roundHalfUpSpec]

/-- C5: finalize_table is deterministic: two calls with identical
arguments (items, rate, catalog, cost overrides) yield identical output
tables, all rounded fields included. -/
theorem C5_deterministic (items items' : List Item) (c c' : ℚ)
    (pr pr' : List String) (ops ops' : List (String × ℚ))
    (h1 : items = items') (h2 : c = c') (h3 : pr = pr') (h4 : ops = ops') :
    finalize_table items c pr ops = finalize_table items' c' pr' ops' := by
  subst h1; subst h2; subst h3; subst h4; rfl

theorem C5_deterministic_witness :
    finalize_table [⟨"A", 100, 50⟩] 5 ["A", "B"] [] =
      finalize_table [⟨"A", 100, 50⟩] 5 ["A", "B"] [] :=
  C5_deterministic _ _ _ _ _ _ _ _ rfl rfl rfl rfl

/-- C6 (amended): with items, catalog and cost overrides fixed, any two
exchange rates yield tables that agree on product, total_stems and
subtotal_source_currency in every row; converted_price and
total_per_stem need not change on every row (see the counterexample). -/
theorem C6_rate_frame (items : List Item) (pr : List String)
    (ops : List (String × ℚ)) (c c' : ℚ) :
    (finalize_table items c pr ops).map (fun r => (r.produto, r.hastes, r.subtotal)) =
      (finalize_table items c' pr ops).map (fun r => (r.produto, r.hastes, r.subtotal)) := by
  simp only [finalize_table, List.map_map]
  rfl

/-- C6 (counterexample): with no items and catalog A, changing the
exchange rate from 1 to 2 leaves converted_price and total_per_stem of
the (single) row unchanged at 0.0, so the claim that both fields change
for every row is false. -/
theorem C6_counterexample :
    (1 : ℚ) ≠ 2 ∧
    (finalize_table [] 1 ["A"] []).map Row.preco = [0] ∧
    (finalize_table [] 2 ["A"] []).map Row.preco = [0] ∧
    (finalize_table [] 1 ["A"] []).map Row.total = [0] ∧
    (finalize_table [] 2 ["A"] []).map Row.total = [0] := by
  refine ⟨by norm_num, ?_, ?_, ?_, ?_⟩ <;>
    norm_num +decide [finalize_table, groupedFrame, groupKeys, mkRow, sumStems, sumValue,
      List.insertionSort, List.orderedInsert, ordKey, roundTo, roundHalfEven,
      List.dedup, List.enum, List.enumFrom, List.foldl, Option.getD, List.lookup]

/-- C7: every row of the table with total_stems equal to 0 has
total_per_stem equal to 0.0, whatever its converted_price and
operational_cost; the division branch is guarded off. -/
theorem C7_zero_stems_total (items : List Item) (c : ℚ) (pr : List String)
    (ops : List (String × ℚ)) :
    ∀ r ∈ finalize_table items c pr ops, r.hastes = 0 → r.total = 0 := by
  intro r hr h0
  simp only [finalize_table, List.mem_map] at hr
  obtain ⟨grp, -, rfl⟩ := hr
  simp only [mkRow] at h0 ⊢
  simp [h0]

theorem C7_zero_stems_total_witness :
    (⟨"B", 0, 0, 5, 0, 0, 0⟩ : Row) ∈ finalize_table [⟨"A", 100, 50⟩] 5 ["A", "B"] [] ∧
    (⟨"B", 0, 0, 5, 0, 0, 0⟩ : Row).total = 0 := by
  have htab : finalize_table [⟨"A", 100, 50⟩] 5 ["A", "B"] [] =
      [⟨"A", 100, 50, 5, 250, 0, 5/2⟩, ⟨"B", 0, 0, 5, 0, 0, 0⟩] := by
    norm_num +decide [finalize_table, groupedFrame, groupKeys, mkRow, sumStems, sumValue,
      List.insertionSort, List.orderedInsert, ordKey, roundTo, roundHalfEven,
      List.dedup, List.enum, List.enumFrom, List.foldl, Option.getD, List.lookup]
  have hmem : (⟨"B", 0, 0, 5, 0, 0, 0⟩ : Row) ∈ finalize_table [⟨"A", 100, 50⟩] 5 ["A", "B"] [] := by
    rw [htab]
    exact List.mem_cons_of_mem _ (List.mem_cons_self _ _)
  exact ⟨hmem, C7_zero_stems_total _ _ _ _ _ hmem rfl⟩

/-- C8: _map_product returns None for a None identifier (no default
applied), and otherwise strips the identifier and resolves it by exact
lookup in the rule map, the mapped product on a hit and the default on a
miss. -/
theorem C8_map_product (rules : List (String × String)) (dflt : String) :
    _map_product rules dflt Option.none = Option.none ∧
    (∀ s c, rules.lookup (pyStrip s) = some c →
      _map_product rules dflt (some s) = some c) ∧
    (∀ s, rules.lookup (pyStrip s) = Option.none →
      _map_product rules dflt (some s) = some dflt) := by
  refine ⟨rfl, ?_, ?_⟩
  · intro s c h
    simp [_map_product, h]
  · intro s h
    simp [_map_product, h]

theorem C8_map_product_witness :
    _map_product [("RosaX", "Rosa")] "Coloridas" Option.none = Option.none ∧
    _map_product [("RosaX", "Rosa")] "Coloridas" (some " RosaX ") = some "Rosa" ∧
    _map_product [("RosaX", "Rosa")] "Coloridas" (some "zzz") = some "Coloridas" :=
  ⟨(C8_map_product _ _).1,
   (C8_map_product _ _).2.1 _ _ (by decide),
   (C8_map_product _ _).2.2 _ (by decide)⟩

/-- C9: the numeric parsers are total functions into integers and
rationals (the model has no exceptions); whenever both conversion
attempts of _parse_int fail it returns 0, and whenever both conversion
attempts of _parse_float fail it returns 0.0. -/
theorem C9_numeric_fallbacks (v : PyVal) :
    (parsePyInt (pyStrip (pyStr v)) = Option.none →
      parsePyFloat (pyStrip (pyReplaceComma (pyStr v))) = Option.none →
      _parse_int v = 0) ∧
    (parsePyFloat (pyStrip (pyReplaceComma (pyStr v))) = Option.none →
      pyFloatOf v = Option.none →
      _parse_float v = 0) := by
  constructor
  · intro h1 h2
    simp [_parse_int, h1, h2]
  · intro h1 h2
    simp [_parse_float, h1, h2]

theorem C9_numeric_fallbacks_witness :
    _parse_int (PyVal.str "abc") = 0 ∧ _parse_float (PyVal.str "abc") = 0 :=
  ⟨(C9_numeric_fallbacks _).1 (by decide) (by decide),
   (C9_numeric_fallbacks _).2 (by decide) (by decide)⟩

/-- C10: each falsy nu_bunches field (absent or null, integer 0, empty
string) makes the bunch-count expression p.get("nu_bunches") or 1 yield
the integer 1, which _parse_int maps to 1 (not the failure value 0), so
the stems of the entry equal the parsed stems-per-bunch field. -/
theorem C10_falsy_bunches :
    pyTruthy PyVal.none = false ∧ pyTruthy (PyVal.int 0) = false ∧
    pyTruthy (PyVal.str "") = false ∧
    ∀ spb v, pyTruthy v = false →
      bunchField v = PyVal.int 1 ∧ _parse_int (bunchField v) = 1 ∧
      entryStems spb v = _parse_int spb := by
  refine ⟨rfl, by decide, rfl, ?_⟩
  intro spb v hv
  have hb : bunchField v = PyVal.int 1 := by simp [bunchField, hv]
  have h1 : _parse_int (PyVal.int 1) = 1 := by decide
  refine ⟨hb, by rw [hb]; exact h1, ?_⟩
  rw [entryStems, hb, h1, mul_one]

theorem C10_falsy_bunches_witness :
    pyTruthy PyVal.none = false ∧
    entryStems (PyVal.str "25") PyVal.none = _parse_int (PyVal.str "25") :=
  ⟨C10_falsy_bunches.1,
   (C10_falsy_bunches.2.2.2 (PyVal.str "25") PyVal.none (by decide)).2.2⟩
